import Mathlib

/-!
Verification of the `file:` protocol filter (app/protocol_filter.ts).

Shallow embedding of the URL→path resolution and allow-list enforcement
pipeline of the protocol filter, together with proofs of its behavioural
properties.

Strings are modelled as Lean `String` (sequences of Unicode scalar values).
The JavaScript / Node primitives the source calls are modelled as follows:

* `decodeURIComponent` — implemented concretely after the ECMAScript
  `Decode` algorithm (strict UTF-8 reassembly of percent-escapes);
  a thrown `URIError` is modelled as `none`.
* `String.prototype.toLowerCase`, `String.prototype.startsWith`,
  `String.prototype.slice`, `String.prototype.indexOf` — implemented
  concretely on the character list (the paths involved are basic-latin,
  where JS case folding agrees with the ASCII folding used here).
* `path.isAbsolute` — implemented concretely after Node's
  `path.posix.isAbsolute` / `path.win32.isAbsolute`, selected by the
  `isWindows` flag.
* `path.normalize`, `fs.existsSync`, `fs.realpathSync` — kept abstract in
  an environment record `Env` (the filesystem is external state); a throw
  of `realpathSync` is modelled as `none`.
-/

/-! ## JS string primitives -/

/-- Models JS `String.prototype.startsWith(search)` (no position argument):
`search` is a leading substring of `s`. -/
def jsStartsWith (s search : String) : Bool :=
  search.data.isPrefixOf s.data

/-- Models JS `String.prototype.slice(n)` for a non-negative start index:
drop the first `n` characters (yields the empty string when `n` exceeds
the length). -/
def jsSlice (s : String) (n : Nat) : String :=
  ⟨s.data.drop n⟩

/-- Models JS `String.prototype.toLowerCase` on one character, for the
basic-latin range (code points 65–90 shift to 97–122; everything else is
unchanged). -/
def jsCharToLower (c : Char) : Char :=
  if 65 ≤ c.toNat ∧ c.toNat ≤ 90 then Char.ofNat (c.toNat + 32) else c

/-- Models JS `String.prototype.toLowerCase` (basic-latin range). -/
def jsToLowerCase (s : String) : String :=
  ⟨s.data.map jsCharToLower⟩

/-- Models JS `String.prototype.indexOf(character)` for a one-character
search string: the index of the first occurrence, `none` when absent
(JS returns `-1`). -/
def charIndexOf : List Char → Char → Option Nat
  | [], _ => none
  | c :: rest, ch => if c = ch then some 0 else (charIndexOf rest ch).map (· + 1)

/-! ## `decodeURIComponent`

The ECMAScript `Decode` abstract operation with an empty reserved set:
every `%XX` escape is decoded, maximal escape runs must form valid UTF-8
(strict: over-long forms, surrogate code points and stray continuation
bytes throw `URIError`), and a `%` not followed by two hex digits throws.
A throw is modelled as `none`. -/

/-- Value of a hexadecimal digit character, `none` for a non-hex-digit. -/
def hexVal? (c : Char) : Option Nat :=
  if 48 ≤ c.toNat ∧ c.toNat ≤ 57 then some (c.toNat - 48)
  else if 65 ≤ c.toNat ∧ c.toNat ≤ 70 then some (c.toNat - 55)
  else if 97 ≤ c.toNat ∧ c.toNat ≤ 102 then some (c.toNat - 87)
  else none

/-- A UTF-8 continuation byte (`0x80`–`0xBF`) written as two hex digits. -/
def contByte? (h l : Char) : Option Nat :=
  match hexVal? h, hexVal? l with
  | some hv, some lv =>
    let b := 16 * hv + lv
    if 128 ≤ b ∧ b ≤ 191 then some b else none
  | _, _ => none

/-- Core of `decodeURIComponent` on the character list. -/
def decodeChars : List Char → Option (List Char)
  | [] => some []
  | '%' :: h1 :: l1 :: rest =>
    match hexVal? h1, hexVal? l1 with
    | some hv, some lv =>
      let b := 16 * hv + lv
      if b < 128 then
        (decodeChars rest).map (Char.ofNat b :: ·)
      else if 194 ≤ b ∧ b ≤ 223 then
        match rest with
        | '%' :: h2 :: l2 :: rest2 =>
          match contByte? h2 l2 with
          | some b2 =>
            (decodeChars rest2).map (Char.ofNat ((b - 192) * 64 + (b2 - 128)) :: ·)
          | none => none
        | _ => none
      else if 224 ≤ b ∧ b ≤ 239 then
        match rest with
        | '%' :: h2 :: l2 :: '%' :: h3 :: l3 :: rest2 =>
          match contByte? h2 l2, contByte? h3 l3 with
          | some b2, some b3 =>
            if (b = 224 → 160 ≤ b2) ∧ (b = 237 → b2 ≤ 159) then
              (decodeChars rest2).map
                (Char.ofNat ((b - 224) * 4096 + (b2 - 128) * 64 + (b3 - 128)) :: ·)
            else none
          | _, _ => none
        | _ => none
      else if 240 ≤ b ∧ b ≤ 244 then
        match rest with
        | '%' :: h2 :: l2 :: '%' :: h3 :: l3 :: '%' :: h4 :: l4 :: rest2 =>
          match contByte? h2 l2, contByte? h3 l3, contByte? h4 l4 with
          | some b2, some b3, some b4 =>
            if (b = 240 → 144 ≤ b2) ∧ (b = 244 → b2 ≤ 143) then
              (decodeChars rest2).map
                (Char.ofNat ((b - 240) * 262144 + (b2 - 128) * 4096 +
                  (b3 - 128) * 64 + (b4 - 128)) :: ·)
            else none
          | _, _, _ => none
        | _ => none
      else none
    | _, _ => none
  | '%' :: _ => none
  | c :: rest => (decodeChars rest).map (c :: ·)

/-- Models JS `decodeURIComponent`; `none` models a thrown `URIError`. -/
def decodeURIComponent (s : String) : Option String :=
  (decodeChars s.data).map String.mk

/-! ## The source's helpers -/

/-- Source `_eliminateAllAfterCharacter(string, character)`: cut the string
at the first occurrence of `character` (via `indexOf` and `slice(0, index)`);
return it unchanged when the character is absent (`indexOf` negative). -/
def _eliminateAllAfterCharacter (s : String) (character : Char) : String :=
  match charIndexOf s.data character with
  | none => s
  | some index => ⟨s.data.take index⟩

/-- Source `_urlToPath(targetUrl, options)`: percent-decode; keep a decoded
string starting with `//` (UNC share) unmodified, otherwise drop the
fixed-length scheme marker (8 characters on Windows, 7 elsewhere); then cut
at the first `?` and then at the first `#`. `none` models a decode throw. -/
def _urlToPath (targetUrl : String) (isWindows : Bool) : Option String :=
  match decodeURIComponent targetUrl with
  | none => none
  | some decoded =>
    let withoutScheme :=
      if jsStartsWith decoded "//" then decoded
      else jsSlice decoded (if isWindows then 8 else 7)
    let withoutQuerystring := _eliminateAllAfterCharacter withoutScheme '?'
    let withoutHash := _eliminateAllAfterCharacter withoutQuerystring '#'
    some withoutHash

/-! ## Node `path.isAbsolute` -/

/-- Node `isPathSeparator`: forward slash (47) or backslash (92). -/
def isPathSeparator (c : Char) : Bool :=
  decide (c.toNat = 47 ∨ c.toNat = 92)

/-- Node `isWindowsDeviceRoot`: an ASCII letter. -/
def isWindowsDeviceRoot (c : Char) : Bool :=
  decide ((65 ≤ c.toNat ∧ c.toNat ≤ 90) ∨ (97 ≤ c.toNat ∧ c.toNat ≤ 122))

/-- Node `path.isAbsolute` on the character list, selected by platform:
POSIX — nonempty and leading `/`; Windows — leading separator, or a drive
letter followed by `:` and a separator. -/
def isAbsoluteChars (isWindows : Bool) : List Char → Bool
  | [] => false
  | c0 :: rest =>
    if isWindows then
      isPathSeparator c0 ||
        (match rest with
         | c1 :: c2 :: _ => isWindowsDeviceRoot c0 && decide (c1.toNat = 58) && isPathSeparator c2
         | _ => false)
    else decide (c0.toNat = 47)

/-- Node `path.isAbsolute` as called by the source. -/
def isAbsolute (isWindows : Bool) (p : String) : Bool :=
  isAbsoluteChars isWindows p.data

/-! ## The file handler -/

/-- The two response shapes the handler produces: a success response whose
body carries the resolved path, or a body-less response with a negative
net-error status. -/
inductive Response where
  | allowed (path : String)
  | denied (status : Int)
deriving DecidableEq, Repr

/-- The external filesystem/path collaborators the handler calls:
`path.normalize`, `fs.existsSync`, and `fs.realpathSync` (whose throw is
modelled as `none`). -/
structure Env where
  normalize : String → String
  existsSync : String → Bool
  realpathSync : String → Option String

/-- Source line `existsSync(target) ? realpathSync(target) : target`:
follow symlinks to the final real path when the target exists, otherwise
keep the target unchanged. -/
def resolveReal (env : Env) (target : String) : Option String :=
  if env.existsSync target then env.realpathSync target else some target

/-- The source's ternary `isWindows ? s.toLowerCase() : s` (used both for
`properCasing` and for each root inside the loop): case-fold for
comparison purposes on Windows only. -/
def foldCase (isWindows : Bool) (s : String) : String :=
  if isWindows then jsToLowerCase s else s

/-- The validation tail of the handler body, from the `properCasing`
binding on: case-fold on Windows, deny a non-absolute real path, scan
`allowedRoots` for a (folded) string-prefix match, and answer with the
real path (original case) on the first hit. -/
def checkPath (isWindows : Bool) (allowedRoots : List String) (realPath : String) : Response :=
  let properCasing := foldCase isWindows realPath
  if !(isAbsolute isWindows realPath) then .denied (-10)
  else
    match allowedRoots.find?
      (fun root => jsStartsWith properCasing (foldCase isWindows root)) with
    | some _ => .allowed realPath
    | none => .denied (-10)

/-- Source `_createFileHandler`: the per-request handler closure. The
`allowedRoots` list is the one the closure computes at startup (user-data
root, install root, and the attachment subdirectory helpers — built
outside this module); `none`/`""` model an absent/empty `request.url`
(JS falsy). Exceptions thrown inside the `try` (decode or `realpathSync`)
surface here as the `none` branches and become the generic denial. -/
def _createFileHandler (isWindows : Bool) (env : Env) (allowedRoots : List String)
    (url : Option String) : Response :=
  match url with
  | none => .denied (-300)
  | some u =>
    if u = "" then .denied (-300)
    else
      match _urlToPath u isWindows with
      | none => .denied (-10)
      | some targetPath =>
        match resolveReal env (env.normalize targetPath) with
        | none => .denied (-10)
        | some realPath => checkPath isWindows allowedRoots realPath

/-! ## Spec-side decoder stages (for the refinement statement of the
URL-decoder claim), written after the spec's words rather than the
source. -/

/-- Spec-side: "first-occurrence-of-character truncation — if the character
is absent, the string is unchanged": the longest leading run of characters
different from `c`. -/
def truncAtFirst (s : String) (c : Char) : String :=
  ⟨s.data.takeWhile (fun x => x != c)⟩

/-- Spec-side: "if the decoded string begins with `//` … it is used
unmodified", "otherwise, a fixed-length scheme marker is stripped: 7
characters on non-Windows platforms, 8 on Windows". -/
def specSchemeStrip (decoded : String) (isWindows : Bool) : String :=
  if decoded.data.take 2 = ['/', '/'] then decoded
  else ⟨decoded.data.drop (if isWindows then 8 else 7)⟩

/-! ## Character-level lemmas -/

theorem char_toNat_inj {a b : Char} (h : a.toNat = b.toNat) : a = b := by
  rw [← Char.ofNat_toNat a, ← Char.ofNat_toNat b, h]

theorem toNat_ofNat_valid (n : Nat) (h : n.isValidChar) : (Char.ofNat n).toNat = n := by
  unfold Char.ofNat
  rw [dif_pos h]
  rfl

theorem jsCharToLower_toNat (c : Char) :
    (jsCharToLower c).toNat =
      if 65 ≤ c.toNat ∧ c.toNat ≤ 90 then c.toNat + 32 else c.toNat := by
  unfold jsCharToLower
  split
  · next h => exact toNat_ofNat_valid _ (Or.inl (by omega))
  · rfl

theorem isPathSeparator_fold (c : Char) :
    isPathSeparator (jsCharToLower c) = isPathSeparator c := by
  unfold isPathSeparator
  rw [decide_eq_decide, jsCharToLower_toNat]
  split <;> omega

theorem colon_fold (c : Char) : (jsCharToLower c).toNat = 58 ↔ c.toNat = 58 := by
  rw [jsCharToLower_toNat]
  split <;> omega

theorem deviceRoot_fold (c : Char) :
    isWindowsDeviceRoot (jsCharToLower c) = isWindowsDeviceRoot c := by
  unfold isWindowsDeviceRoot
  rw [decide_eq_decide, jsCharToLower_toNat]
  split <;> omega

/-! ## List/string prefix lemmas -/

theorem isPrefixOf_eq (l₁ l₂ : List Char) :
    l₁.isPrefixOf l₂ = true ↔ ∃ t, l₂ = l₁ ++ t := by
  induction l₁ generalizing l₂ with
  | nil => simp [List.isPrefixOf]
  | cons a as ih =>
    cases l₂ with
    | nil => simp [List.isPrefixOf]
    | cons b bs =>
      simp only [List.isPrefixOf, Bool.and_eq_true, beq_iff_eq, ih, List.cons_append,
        List.cons.injEq]
      constructor
      · rintro ⟨rfl, t, rfl⟩
        exact ⟨t, rfl, rfl⟩
      · rintro ⟨t, rfl, rfl⟩
        exact ⟨rfl, t, rfl⟩

theorem jsStartsWith_eq (s search : String) :
    jsStartsWith s search = true ↔ ∃ t, s.data = search.data ++ t := by
  unfold jsStartsWith
  exact isPrefixOf_eq _ _

theorem charIndexOf_eq_none (l : List Char) (c : Char) :
    charIndexOf l c = none ↔ c ∉ l := by
  induction l with
  | nil => simp [charIndexOf]
  | cons a as ih =>
    by_cases hac : a = c
    · subst hac
      simp [charIndexOf]
    · have hca : ¬c = a := fun hc => hac hc.symm
      cases hidx : charIndexOf as c with
      | none =>
        have hnotin : c ∉ as := ih.mp hidx
        simp [charIndexOf, hac, hidx, hca, hnotin]
      | some i =>
        have hin : c ∈ as := by
          by_contra hmem
          rw [ih.mpr hmem] at hidx
          cases hidx
        simp [charIndexOf, hac, hidx, hin]

theorem indexCut_eq_takeWhile (l : List Char) (c : Char) :
    (match charIndexOf l c with
      | none => l
      | some i => l.take i) = l.takeWhile (fun x => x != c) := by
  induction l with
  | nil => simp [charIndexOf]
  | cons a as ih =>
    by_cases hac : a = c
    · subst hac
      have h0 : charIndexOf (a :: as) a = some 0 := by simp [charIndexOf]
      rw [h0]
      simp [List.takeWhile_cons]
    · have hne : (a != c) = true := bne_iff_ne.mpr hac
      cases hidx : charIndexOf as c with
      | none =>
        have hcons : charIndexOf (a :: as) c = none := by simp [charIndexOf, hac, hidx]
        rw [hcons, List.takeWhile_cons, if_pos hne]
        rw [hidx] at ih
        have ih' : as = as.takeWhile (fun x => x != c) := ih
        rw [← ih']
      | some i =>
        have hcons : charIndexOf (a :: as) c = some (i + 1) := by
          simp [charIndexOf, hac, hidx]
        rw [hcons, List.takeWhile_cons, if_pos hne]
        rw [hidx] at ih
        have ih' : as.take i = as.takeWhile (fun x => x != c) := ih
        show List.take (i + 1) (a :: as) = a :: as.takeWhile (fun x => x != c)
        rw [List.take_succ_cons, ih']

theorem elim_eq_takeWhile (s : String) (c : Char) :
    _eliminateAllAfterCharacter s c = ⟨s.data.takeWhile (fun x => x != c)⟩ := by
  have key := indexCut_eq_takeWhile s.data c
  unfold _eliminateAllAfterCharacter
  cases hidx : charIndexOf s.data c with
  | none =>
    rw [hidx] at key
    have key' : s.data = s.data.takeWhile (fun x => x != c) := key
    show s = String.mk (s.data.takeWhile fun x => x != c)
    rw [← key']
  | some i =>
    rw [hidx] at key
    have key' : s.data.take i = s.data.takeWhile (fun x => x != c) := key
    show String.mk (s.data.take i) = String.mk (s.data.takeWhile fun x => x != c)
    rw [key']

/-! ## Case-folding facts -/

theorem foldCase_false (s : String) : foldCase false s = s := rfl

theorem foldCase_true (s : String) : foldCase true s = jsToLowerCase s := rfl

theorem foldCase_data_true (s : String) :
    (foldCase true s).data = s.data.map jsCharToLower := rfl

/-! ## Absoluteness is inherited along (case-folded) extensions -/

theorem isAbsoluteChars_true_iff (c0 : Char) (rest : List Char) :
    isAbsoluteChars true (c0 :: rest) = true ↔
      (isPathSeparator c0 = true ∨
        ∃ c1 c2 tail, rest = c1 :: c2 :: tail ∧
          isWindowsDeviceRoot c0 = true ∧ c1.toNat = 58 ∧ isPathSeparator c2 = true) := by
  cases rest with
  | nil =>
    show (isPathSeparator c0 || false) = true ↔ _
    simp
  | cons c1 rtail =>
    cases rtail with
    | nil =>
      show (isPathSeparator c0 || false) = true ↔ _
      simp
    | cons c2 tail2 =>
      show (isPathSeparator c0 ||
        (isWindowsDeviceRoot c0 && decide (c1.toNat = 58) && isPathSeparator c2)) = true ↔ _
      simp only [Bool.or_eq_true, Bool.and_eq_true, decide_eq_true_eq, List.cons.injEq]
      constructor
      · rintro (h | ⟨⟨h1, h2⟩, h3⟩)
        · exact Or.inl h
        · exact Or.inr ⟨c1, c2, tail2, ⟨rfl, rfl, rfl⟩, h1, h2, h3⟩
      · rintro (h | ⟨d1, d2, dtail, ⟨rfl, rfl, rfl⟩, h1, h2, h3⟩)
        · exact Or.inl h
        · exact Or.inr ⟨⟨h1, h2⟩, h3⟩

theorem isAbsolute_of_fold_extension (w : Bool) (root rp : String)
    (hroot : isAbsolute w root = true)
    (hsw : jsStartsWith (foldCase w rp) (foldCase w root) = true) :
    isAbsolute w rp = true := by
  cases w with
  | false =>
    rw [foldCase_false, foldCase_false] at hsw
    obtain ⟨t, ht⟩ := (jsStartsWith_eq _ _).mp hsw
    unfold isAbsolute at hroot ⊢
    cases hr : root.data with
    | nil =>
      rw [hr] at hroot
      exact Bool.noConfusion hroot
    | cons c0 cs =>
      rw [hr] at hroot ht
      rw [ht]
      show decide (c0.toNat = 47) = true
      exact hroot
  | true =>
    obtain ⟨t, ht⟩ := (jsStartsWith_eq _ _).mp hsw
    rw [foldCase_data_true, foldCase_data_true] at ht
    unfold isAbsolute at hroot ⊢
    cases hr : root.data with
    | nil =>
      rw [hr] at hroot
      exact Bool.noConfusion hroot
    | cons r0 rrest =>
      rw [hr] at hroot ht
      cases hp : rp.data with
      | nil => rw [hp] at ht; simp at ht
      | cons p0 prest =>
        rw [hp] at ht
        simp only [List.map_cons, List.cons_append, List.cons.injEq] at ht
        obtain ⟨hp0, hrest⟩ := ht
        rw [isAbsoluteChars_true_iff] at hroot ⊢
        cases hroot with
        | inl hsep =>
          left
          rw [← isPathSeparator_fold p0, hp0, isPathSeparator_fold r0]
          exact hsep
        | inr hmatch =>
          obtain ⟨r1, r2, rtail2, hrr, hdr, hcolon, hsep2⟩ := hmatch
          subst hrr
          cases prest with
          | nil => simp at hrest
          | cons p1 ptail =>
            cases ptail with
            | nil =>
              simp only [List.map_cons, List.cons_append, List.cons.injEq,
                List.map_nil] at hrest
              exact absurd hrest.2 (by simp)
            | cons p2 ptail2 =>
              simp only [List.map_cons, List.cons_append, List.cons.injEq] at hrest
              obtain ⟨hp1, hp2, _⟩ := hrest
              right
              refine ⟨p1, p2, ptail2, rfl, ?_, ?_, ?_⟩
              · rw [← deviceRoot_fold p0, hp0, deviceRoot_fold r0]
                exact hdr
              · rw [← colon_fold p1, hp1, colon_fold r1]
                exact hcolon
              · rw [← isPathSeparator_fold p2, hp2, isPathSeparator_fold r2]
                exact hsep2

/-! ## Reduction lemmas for the handler -/

theorem handler_eq_checkPath (w : Bool) (env : Env) (roots : List String)
    (u tp rp : String) (hu : u ≠ "") (hurl : _urlToPath u w = some tp)
    (hres : resolveReal env (env.normalize tp) = some rp) :
    _createFileHandler w env roots (some u) = checkPath w roots rp := by
  simp only [_createFileHandler, hu, if_false, hurl, hres]

theorem checkPath_allowed (w : Bool) (roots : List String) (rp : String)
    (habs : isAbsolute w rp = true)
    (hmem : ∃ root ∈ roots,
      jsStartsWith (foldCase w rp) (foldCase w root) = true) :
    checkPath w roots rp = .allowed rp := by
  unfold checkPath
  rw [habs]
  simp only [Bool.not_true, Bool.false_eq_true, if_false]
  obtain ⟨r, hr, hsw⟩ := hmem
  cases hfind : roots.find? (fun root => jsStartsWith (foldCase w rp) (foldCase w root)) with
  | none =>
    rw [List.find?_eq_none] at hfind
    exact absurd hsw (by simpa using hfind r hr)
  | some x => rfl

theorem checkPath_denied_of_no_match (w : Bool) (roots : List String) (rp : String)
    (hnone : ∀ root ∈ roots,
      jsStartsWith (foldCase w rp) (foldCase w root) = false) :
    checkPath w roots rp = .denied (-10) := by
  unfold checkPath
  cases habs : isAbsolute w rp with
  | false => rfl
  | true =>
    simp only [Bool.not_true, Bool.false_eq_true, if_false]
    rw [List.find?_eq_none.mpr (fun x hx => by simp [hnone x hx])]

theorem elim_of_not_mem (s : String) (c : Char) (h : c ∉ s.data) :
    _eliminateAllAfterCharacter s c = s := by
  unfold _eliminateAllAfterCharacter
  rw [(charIndexOf_eq_none s.data c).mpr h]

theorem checkPath_denied_code (w : Bool) (roots : List String) (rp : String) (s : Int)
    (h : checkPath w roots rp = .denied s) : s = -10 := by
  simp only [checkPath] at h
  split at h
  · injection h with h'
    exact h'.symm
  · split at h
    · exact absurd h (by simp)
    · injection h with h'
      exact h'.symm

theorem handler_denied_code (w : Bool) (env : Env) (roots : List String) (u : String)
    (hu : u ≠ "") (s : Int)
    (h : _createFileHandler w env roots (some u) = .denied s) : s = -10 := by
  simp only [_createFileHandler, hu, if_false] at h
  cases hurl : _urlToPath u w with
  | none =>
    simp only [hurl, Response.denied.injEq] at h
    exact h.symm
  | some tp =>
    simp only [hurl] at h
    cases hres : resolveReal env (env.normalize tp) with
    | none =>
      simp only [hres, Response.denied.injEq] at h
      exact h.symm
    | some rp =>
      simp only [hres] at h
      exact checkPath_denied_code w roots rp s h

theorem startsWith_slashes (d : String) :
    jsStartsWith d "//" = true ↔ d.data.take 2 = ['/', '/'] := by
  rw [jsStartsWith_eq]
  show (∃ t, d.data = ['/', '/'] ++ t) ↔ _
  generalize d.data = l
  rcases l with _ | ⟨a, _ | ⟨b, l⟩⟩ <;> simp [List.cons.injEq]

theorem schemeStrip_eq (d : String) (w : Bool) :
    (if jsStartsWith d "//" then d else jsSlice d (if w then 8 else 7)) =
      specSchemeStrip d w := by
  unfold specSchemeStrip jsSlice
  by_cases h : d.data.take 2 = ['/', '/']
  · rw [if_pos ((startsWith_slashes d).mpr h), if_pos h]
  · rw [if_neg (fun hs => h ((startsWith_slashes d).mp hs)), if_neg h]

theorem checkPath_perm (w : Bool) (roots₁ roots₂ : List String) (rp : String)
    (hperm : roots₁.Perm roots₂) :
    checkPath w roots₁ rp = checkPath w roots₂ rp := by
  unfold checkPath
  cases habs : isAbsolute w rp with
  | false => rfl
  | true =>
    simp only [Bool.not_true, Bool.false_eq_true, if_false]
    cases h1 : roots₁.find? (fun root => jsStartsWith (foldCase w rp) (foldCase w root)) with
    | none =>
      cases h2 : roots₂.find? (fun root => jsStartsWith (foldCase w rp) (foldCase w root)) with
      | none => rfl
      | some r₂ =>
        have hmem₂ := List.mem_of_find?_eq_some h2
        have hpred₂ := List.find?_some h2
        rw [List.find?_eq_none] at h1
        exact absurd hpred₂ (h1 r₂ (hperm.mem_iff.mpr hmem₂))
    | some r₁ =>
      cases h2 : roots₂.find? (fun root => jsStartsWith (foldCase w rp) (foldCase w root)) with
      | none =>
        have hmem₁ := List.mem_of_find?_eq_some h1
        have hpred₁ := List.find?_some h1
        rw [List.find?_eq_none] at h2
        exact absurd hpred₁ (h2 r₁ (hperm.mem_iff.mp hmem₁))
      | some r₂ => rfl

/-! ## The claims -/

/-- C1: for every set of allowed roots (absolute, per the AllowedRoots
invariant) and every request whose URL decodes and canonicalizes to a path
that lies under one of the allowed roots (string-prefix containment,
including the path equal to the root itself), the file handler returns the
`allowed` outcome carrying exactly that canonicalized path. -/
theorem c1_allowed_under_root (w : Bool) (env : Env) (roots : List String)
    (u tp rp : String) (hu : u ≠ "")
    (hurl : _urlToPath u w = some tp)
    (hres : resolveReal env (env.normalize tp) = some rp)
    (hroots : ∀ root ∈ roots, isAbsolute w root = true)
    (hmem : ∃ root ∈ roots, jsStartsWith (foldCase w rp) (foldCase w root) = true) :
    _createFileHandler w env roots (some u) = .allowed rp := by
  obtain ⟨r, hr, hsw⟩ := hmem
  rw [handler_eq_checkPath w env roots u tp rp hu hurl hres]
  exact checkPath_allowed w roots rp
    (isAbsolute_of_fold_extension w r rp (hroots r hr) hsw) ⟨r, hr, hsw⟩

theorem c1_witness :
    _createFileHandler false ⟨id, fun _ => false, fun _ => none⟩ ["/data/app"]
      (some "file:///data/app/attachments/a.png") = .allowed "/data/app/attachments/a.png" :=
  c1_allowed_under_root false ⟨id, fun _ => false, fun _ => none⟩ ["/data/app"]
    "file:///data/app/attachments/a.png" "/data/app/attachments/a.png"
    "/data/app/attachments/a.png" (by decide) (by decide) rfl (by decide)
    ⟨"/data/app", by decide, by decide⟩

/-- C2: canonicalization resolves symlinks before the allow-list check.
When the normalized target exists, the handler's outcome is entirely the
validation of the real path returned by `realpathSync` (so a symlink inside
an allowed root that resolves outside every allowed root is denied with
code −10, whatever the target string itself looked like); when the target
does not exist, the normalized path is validated unchanged, with no
resolution error. -/
theorem c2_symlink_resolution (w : Bool) (env : Env) (roots : List String)
    (u tp : String) (hu : u ≠ "") (hurl : _urlToPath u w = some tp) :
    (∀ rp, env.existsSync (env.normalize tp) = true →
      env.realpathSync (env.normalize tp) = some rp →
      (_createFileHandler w env roots (some u) = checkPath w roots rp ∧
        ((∀ root ∈ roots, jsStartsWith (foldCase w rp) (foldCase w root) = false) →
          _createFileHandler w env roots (some u) = .denied (-10)))) ∧
    (env.existsSync (env.normalize tp) = false →
      _createFileHandler w env roots (some u) = checkPath w roots (env.normalize tp)) := by
  constructor
  · intro rp hex hreal
    have hres : resolveReal env (env.normalize tp) = some rp := by
      unfold resolveReal
      rw [hex]
      exact hreal
    refine ⟨handler_eq_checkPath w env roots u tp rp hu hurl hres, fun hnone => ?_⟩
    rw [handler_eq_checkPath w env roots u tp rp hu hurl hres]
    exact checkPath_denied_of_no_match w roots rp hnone
  · intro hex
    have hres : resolveReal env (env.normalize tp) = some (env.normalize tp) := by
      unfold resolveReal
      rw [hex]
      rfl
    exact handler_eq_checkPath w env roots u tp (env.normalize tp) hu hurl hres

theorem c2_witness :
    _createFileHandler false ⟨id, fun _ => true, fun _ => some "/outside/target"⟩
      ["/allowed/root"] (some "file:///allowed/root/link") = .denied (-10) :=
  ((c2_symlink_resolution false ⟨id, fun _ => true, fun _ => some "/outside/target"⟩
    ["/allowed/root"] "file:///allowed/root/link" "/allowed/root/link"
    (by decide) (by decide)).1 "/outside/target" rfl rfl).2 (by decide)

/-- C3: on a present, nonempty URL, every denial carries the single code
−10 — whether the resolved path fell outside all allowed roots, was not
absolute, or an exception was raised during decoding or resolution
(second conjunct: a decode failure yields exactly `denied (-10)`) — so
these failure causes are externally indistinguishable. -/
theorem c3_denial_code_uniform (w : Bool) (env : Env) (roots : List String)
    (u : String) (hu : u ≠ "") :
    (∀ s : Int, _createFileHandler w env roots (some u) = .denied s → s = -10) ∧
    (_urlToPath u w = none → _createFileHandler w env roots (some u) = .denied (-10)) := by
  refine ⟨fun s h => handler_denied_code w env roots u hu s h, fun hnone => ?_⟩
  simp only [_createFileHandler, hu, if_false, hnone]

theorem c3_witness :
    _createFileHandler false ⟨id, fun _ => false, fun _ => none⟩ ["/data/app"]
      (some "%") = .denied (-10) :=
  (c3_denial_code_uniform false ⟨id, fun _ => false, fun _ => none⟩ ["/data/app"] "%"
    (by decide)).2 (by decide)

/-- C4: the handler answers the distinguished code −300 exactly when the
request's URL is absent or empty; every other request gets either an
`allowed` response or a denial with a different code. -/
theorem c4_invalid_url_code (w : Bool) (env : Env) (roots : List String)
    (url : Option String) :
    _createFileHandler w env roots url = .denied (-300) ↔
      url = none ∨ url = some "" := by
  constructor
  · intro h
    cases url with
    | none => exact Or.inl rfl
    | some u =>
      by_cases hu : u = ""
      · exact Or.inr (by rw [hu])
      · have := handler_denied_code w env roots u hu (-300) h
        exact absurd this (by decide)
  · rintro (rfl | rfl)
    · rfl
    · rfl

/-- C5: the allow-list containment test is a literal string-prefix
comparison with no path-segment-boundary check: with `/data/app` among the
allowed roots, the request for `/data/app-evil/secret` — a sibling
directory whose name extends the root as a string prefix — is `allowed`. -/
theorem c5_sibling_root_match (roots : List String) (env : Env)
    (hmem : "/data/app" ∈ roots)
    (hnorm : env.normalize "/data/app-evil/secret" = "/data/app-evil/secret")
    (hex : env.existsSync "/data/app-evil/secret" = false) :
    _createFileHandler false env roots (some "file:///data/app-evil/secret") =
      .allowed "/data/app-evil/secret" := by
  have hurl : _urlToPath "file:///data/app-evil/secret" false =
      some "/data/app-evil/secret" := by decide
  have hres : resolveReal env (env.normalize "/data/app-evil/secret") =
      some "/data/app-evil/secret" := by
    unfold resolveReal
    rw [hnorm, hex]
    rfl
  rw [handler_eq_checkPath false env roots "file:///data/app-evil/secret"
    "/data/app-evil/secret" "/data/app-evil/secret" (by decide) hurl hres]
  exact checkPath_allowed false roots "/data/app-evil/secret" (by decide)
    ⟨"/data/app", hmem, by decide⟩

theorem c5_witness :
    _createFileHandler false ⟨id, fun _ => false, fun _ => none⟩ ["/data/app"]
      (some "file:///data/app-evil/secret") = .allowed "/data/app-evil/secret" :=
  c5_sibling_root_match ["/data/app"] ⟨id, fun _ => false, fun _ => none⟩
    (by decide) rfl rfl

/-- C6: on any URL whose percent-decoding succeeds, `_urlToPath` produces
exactly the spec's pipeline: keep a decoded string that begins with `//`
unmodified, otherwise strip exactly 7 characters (8 on Windows); then cut
everything from the first `?`, then everything from the first `#` — and
the truncation primitive leaves a string unchanged whenever the character
is absent. -/
theorem c6_url_decoder_pipeline (url : String) (w : Bool) (d : String)
    (hd : decodeURIComponent url = some d) :
    _urlToPath url w =
      some (truncAtFirst (truncAtFirst (specSchemeStrip d w) '?') '#') ∧
    (∀ (s : String) (c : Char), c ∉ s.data → _eliminateAllAfterCharacter s c = s) := by
  refine ⟨?_, fun s c h => elim_of_not_mem s c h⟩
  unfold _urlToPath
  rw [hd]
  show some (_eliminateAllAfterCharacter (_eliminateAllAfterCharacter
    (if jsStartsWith d "//" then d else jsSlice d (if w then 8 else 7)) '?') '#') = _
  rw [schemeStrip_eq d w, elim_eq_takeWhile, elim_eq_takeWhile]
  rfl

theorem c6_witness :
    _urlToPath "file:///tmp/a%20b.png?x=1#y" false =
      some (truncAtFirst (truncAtFirst
        (specSchemeStrip "file:///tmp/a b.png?x=1#y" false) '?') '#') :=
  (c6_url_decoder_pipeline "file:///tmp/a%20b.png?x=1#y" false
    "file:///tmp/a b.png?x=1#y" (by decide)).1

/-- C7: with the Windows platform flag set, a resolved real path that
differs from an allowed root only in letter case still matches (both sides
are lower-cased for the comparison), while the path returned in the
`allowed` response is the real path with its original casing. -/
theorem c7_windows_case_insensitive (env : Env) (roots : List String)
    (u tp rp root : String) (hu : u ≠ "")
    (hurl : _urlToPath u true = some tp)
    (hres : resolveReal env (env.normalize tp) = some rp)
    (hmem : root ∈ roots) (hroot : isAbsolute true root = true)
    (hcase : jsToLowerCase rp = jsToLowerCase root) :
    _createFileHandler true env roots (some u) = .allowed rp := by
  have hsw : jsStartsWith (foldCase true rp) (foldCase true root) = true := by
    rw [foldCase_true, foldCase_true, hcase]
    exact (jsStartsWith_eq _ _).mpr ⟨[], (List.append_nil _).symm⟩
  rw [handler_eq_checkPath true env roots u tp rp hu hurl hres]
  exact checkPath_allowed true roots rp
    (isAbsolute_of_fold_extension true root rp hroot hsw) ⟨root, hmem, hsw⟩

theorem c7_witness :
    _createFileHandler true ⟨id, fun _ => false, fun _ => none⟩ ["C:\\Users\\bob"]
      (some "file:///C:\\USERS\\BOB") = .allowed "C:\\USERS\\BOB" :=
  c7_windows_case_insensitive ⟨id, fun _ => false, fun _ => none⟩ ["C:\\Users\\bob"]
    "file:///C:\\USERS\\BOB" "C:\\USERS\\BOB" "C:\\USERS\\BOB" "C:\\Users\\bob"
    (by decide) (by decide) rfl (by decide) (by decide) (by decide)

/-- C8: a resolved path that is not absolute is denied with code −10
whatever the allowed roots are — the absoluteness check precedes and
overrides root matching. -/
theorem c8_nonabsolute_denied (w : Bool) (env : Env) (roots : List String)
    (u tp rp : String) (hu : u ≠ "")
    (hurl : _urlToPath u w = some tp)
    (hres : resolveReal env (env.normalize tp) = some rp)
    (habs : isAbsolute w rp = false) :
    _createFileHandler w env roots (some u) = .denied (-10) := by
  rw [handler_eq_checkPath w env roots u tp rp hu hurl hres]
  unfold checkPath
  rw [habs]
  rfl

theorem c8_witness :
    _createFileHandler false ⟨id, fun _ => false, fun _ => none⟩ ["/data/app"]
      (some "file://x") = .denied (-10) :=
  c8_nonabsolute_denied false ⟨id, fun _ => false, fun _ => none⟩ ["/data/app"]
    "file://x" "x" "x" (by decide) (by decide) rfl (by decide)

/-- C9: permuting the AllowedRoots list never changes the handler's
outcome — not whether a request is allowed or denied, nor the path an
`allowed` response carries; the first-match scan is only an early exit. -/
theorem c9_roots_order_irrelevant (w : Bool) (env : Env) (url : Option String)
    (roots₁ roots₂ : List String) (hperm : roots₁.Perm roots₂) :
    _createFileHandler w env roots₁ url = _createFileHandler w env roots₂ url := by
  cases url with
  | none => rfl
  | some u =>
    by_cases hu : u = ""
    · subst hu
      rfl
    · cases hurl : _urlToPath u w with
      | none => simp only [_createFileHandler, hu, if_false, hurl]
      | some tp =>
        cases hres : resolveReal env (env.normalize tp) with
        | none => simp only [_createFileHandler, hu, if_false, hurl, hres]
        | some rp =>
          rw [handler_eq_checkPath w env roots₁ u tp rp hu hurl hres,
            handler_eq_checkPath w env roots₂ u tp rp hu hurl hres]
          exact checkPath_perm w roots₁ roots₂ rp hperm

theorem c9_witness :
    _createFileHandler false ⟨id, fun _ => false, fun _ => none⟩ ["/a", "/b"]
      (some "file:///b/x") =
    _createFileHandler false ⟨id, fun _ => false, fun _ => none⟩ ["/b", "/a"]
      (some "file:///b/x") :=
  c9_roots_order_irrelevant false ⟨id, fun _ => false, fun _ => none⟩
    (some "file:///b/x") ["/a", "/b"] ["/b", "/a"] (by decide)

/-- C10: `_eliminateAllAfterCharacter s c` returns a leading part of `s`
that never contains `c`, and applying it twice with the same character is
the same as applying it once. -/
theorem c10_elim_properties (s : String) (c : Char) :
    (∃ t, s.data = (_eliminateAllAfterCharacter s c).data ++ t) ∧
    c ∉ (_eliminateAllAfterCharacter s c).data ∧
    _eliminateAllAfterCharacter (_eliminateAllAfterCharacter s c) c =
      _eliminateAllAfterCharacter s c := by
  have hdata : (_eliminateAllAfterCharacter s c).data =
      s.data.takeWhile (fun x => x != c) := by
    rw [elim_eq_takeWhile]
  have hnot : c ∉ (_eliminateAllAfterCharacter s c).data := by
    rw [hdata]
    intro hmem
    have := List.mem_takeWhile_imp hmem
    simp at this
  exact ⟨⟨s.data.dropWhile (fun x => x != c), by
      rw [hdata]
      exact (List.takeWhile_append_dropWhile _ _).symm⟩,
    hnot, elim_of_not_mem _ c hnot⟩
